import Mathlib

/-!
# Verification of `Firebase.getAsArray` (firebase-as-array.js)

Shallow embedding of the `ReadOnlySynchronizedArray` synchronization engine:
the parallel key/value sequences (`ids` / `list`), the four server-event
handlers (`_serverAdd`, `_serverRemove`, `_serverChange`, `_serverMove`,
with `_moveTo` and `applyToBase`), the mutation methods
(`add`, `set`, `update`, `setPriority`, `remove`) together with the write
operations they issue against the Firebase ref, and the error path
(`_handleErrors` / `_handleEvent`).

JavaScript values are modelled by `JSVal`; object identity (needed for the
in-place merge behaviour of `applyToBase`) is modelled by an object id
(`oid`) carried by every object value.  JS array `splice` insertion and
single-element removal are modelled by `spliceInsert` / `spliceRemove1`,
which clamp out-of-range positions exactly as `Array.prototype.splice`
does.  `Array.prototype.indexOf`, which returns `-1` or an index, is
modelled by the `Option Nat`-valued `posByKey` (`none` plays the role of
`-1`; the handlers' `pos !== -1` tests become matches on the option).
-/

namespace FBArray

/-- JavaScript values as stored in the synchronized list.  An object
carries an object id `oid` modelling its reference identity, plus its own
(insertion-ordered) field list. -/
inductive JSVal where
  | null : JSVal
  | undef : JSVal
  | bool : Bool → JSVal
  | num : Int → JSVal
  | str : String → JSVal
  | obj : Nat → List (String × JSVal) → JSVal

/-- `isObject(x)`: `typeof(x) === 'object' && x !== null`. -/
def isObject : JSVal → Bool
  | .obj _ _ => true
  | _ => false

/-- Object id of a value (its reference identity), when it is an object. -/
def objId : JSVal → Option Nat
  | .obj i _ => some i
  | _ => none

/-- Field list of a value, when it is an object. -/
def fieldsOf : JSVal → List (String × JSVal)
  | .obj _ f => f
  | _ => []

/-- `fields.hasOwnProperty(k)`. -/
def hasOwn (fields : List (String × JSVal)) (k : String) : Bool :=
  fields.any (fun p => p.1 == k)

/-- First binding of key `k` in a field list (`base[k]` read). -/
def getField : List (String × JSVal) → String → Option JSVal
  | [], _ => none
  | p :: ps, k => if p.1 == k then some p.2 else getField ps k

/-- JS property assignment `base[k] = v`: overwrite in place if the key is
present, append otherwise. -/
def setField : List (String × JSVal) → String → JSVal → List (String × JSVal)
  | [], k, v => [(k, v)]
  | p :: ps, k, v => if p.1 == k then (k, v) :: ps else p :: setField ps k v

/-- `applyToBase(base, data)` from firebase-as-array.js: when both are
objects, delete from `base` every own key absent from `data`, then copy
every own field of `data` into `base`, returning `base` (same identity);
otherwise return `data`. -/
def applyToBase (base data : JSVal) : JSVal :=
  match base, data with
  | .obj i bf, .obj _ df =>
      .obj i ((df.foldl (fun b q => setField b q.1 q.2)
        (bf.filter (fun p => hasOwn df p.1))))
  | _, data => data

/-- The state of a `ReadOnlySynchronizedArray`: the parallel sequences
`this.ids` (keys) and `this.list` (records). -/
structure ArrState where
  ids : List String
  list : List JSVal

/-- `posByKey(key)` = `this.ids.indexOf(key)`; `none` models `-1`. -/
def posByKey : List String → String → Option Nat
  | [], _ => none
  | x :: xs, k => if x == k then some 0 else (posByKey xs k).map (fun n => n + 1)

/-- `arr.splice(pos, 0, a)`: insert at `pos`, clamped to the length. -/
def spliceInsert {α : Type} : List α → Nat → α → List α
  | l, 0, a => a :: l
  | [], _ + 1, a => [a]
  | x :: xs, n + 1, a => x :: spliceInsert xs n a

/-- `arr.splice(pos, 1)`: remove the element at `pos` (no-op out of range). -/
def spliceRemove1 {α : Type} : List α → Nat → List α
  | [], _ => []
  | _ :: xs, 0 => xs
  | x :: xs, n + 1 => x :: spliceRemove1 xs n

/-- `arr[pos]` read: `undefined` out of range. -/
def jsGet (l : List JSVal) (pos : Nat) : JSVal :=
  l.getD pos JSVal.undef

/-- A notification delivered to the `eventCallback`:
`(eventType, recordId, data)`; `recordId = none` models the literal
`null` passed for error events. -/
structure EvRec where
  eventType : String
  recordId : Option String
  data : JSVal

/-- `_moveTo(id, data, prevId)` — translated verbatim: for a non-null
`prevId` the source looks up `posByKey(id)` (the key being inserted, not
the sibling), inserting at the end on `-1` and after that position
otherwise. -/
def moveTo (s : ArrState) (id : String) (data : JSVal)
    (prevId : Option String) : ArrState :=
  match prevId with
  | none => ⟨id :: s.ids, data :: s.list⟩
  | some _ =>
      let pos : Nat :=
        match posByKey s.ids id with
        | none => s.list.length
        | some p => p + 1
      ⟨spliceInsert s.ids pos id, spliceInsert s.list pos data⟩

/-- `_serverAdd(snap, prevId)`: `_moveTo` then the `child_added`
notification. -/
def serverAdd (s : ArrState) (key : String) (val : JSVal)
    (prevId : Option String) : ArrState × List EvRec :=
  (moveTo s key val prevId, [⟨"child_added", some key, val⟩])

/-- `_serverRemove(snap)`: when the key is present, splice both sequences
at its position and notify with `this.list[pos]` — read *after* the
splice, exactly as the source does. -/
def serverRemove (s : ArrState) (key : String) : ArrState × List EvRec :=
  match posByKey s.ids key with
  | none => (s, [])
  | some pos =>
      let list' := spliceRemove1 s.list pos
      let ids' := spliceRemove1 s.ids pos
      (⟨ids', list'⟩, [⟨"child_removed", some key, jsGet list' pos⟩])

/-- `_serverChange(snap)`: when the key is present, merge the new value
into the record at its position via `applyToBase` and notify with the
updated record. -/
def serverChange (s : ArrState) (key : String) (val : JSVal) :
    ArrState × List EvRec :=
  match posByKey s.ids key with
  | none => (s, [])
  | some pos =>
      let newV := applyToBase (jsGet s.list pos) val
      (⟨s.ids, s.list.set pos newV⟩, [⟨"child_changed", some key, newV⟩])

/-- `_serverMove(snap, prevId)`: when the key is present, splice it out of
both sequences, reinsert via `_moveTo`, and notify with its record. -/
def serverMove (s : ArrState) (key : String) (prevId : Option String) :
    ArrState × List EvRec :=
  match posByKey s.ids key with
  | none => (s, [])
  | some oldPos =>
      let data := jsGet s.list oldPos
      let s1 : ArrState :=
        ⟨spliceRemove1 s.ids oldPos, spliceRemove1 s.list oldPos⟩
      (moveTo s1 key data prevId, [⟨"child_moved", some key, data⟩])

/-- Kind of remote write operation issued against the ref
(`ref.child(key).set/update/setPriority/remove`, `ref.push().set`). -/
inductive WriteKind where
  | setW : JSVal → WriteKind
  | updateW : JSVal → WriteKind
  | setPriorityW : Int → WriteKind
  | removeW : WriteKind

/-- A completion handler passed with a write: `_handleErrors` bound to a
record key.  `thisBound = true` models `.bind(this, key)`;
`thisBound = false` models the `.bind(null, key)` used by `remove`. -/
structure Handler where
  thisBound : Bool
  key : String

/-- One write issued to the remote ordered source: the child key it
targets, the operation, and the completion handler, if any was passed. -/
structure WriteOp where
  target : String
  kind : WriteKind
  onComplete : Option Handler

/-- `_handleErrors(key, err)` with a properly bound receiver: on a
truthy `err` it fires `_handleEvent('error', null, key)` — event type
`"error"`, `null` in the record-id slot, the key in the data slot. -/
def handleErrors (key : String) (err : Option String) : List EvRec :=
  match err with
  | some _ => [⟨"error", none, .str key⟩]
  | none => []

/-- Run a write's completion handler on the async result.  No handler
means nothing runs; a handler bound to `null` faults with a `TypeError`
(modelled by `Except.error ()`) as soon as a truthy error makes it touch
`this._handleEvent`. -/
def handlerRun : Option Handler → Option String → Except Unit (List EvRec)
  | none, _ => .ok []
  | some _, none => .ok []
  | some h, some e =>
      if h.thisBound then .ok (handleErrors h.key (some e)) else .error ()

/-- A write's failure is reported when, for every asynchronous error, its
completion handler runs without faulting and delivers an error event
tagged with the write's record key. -/
def ReportsFailure (op : WriteOp) : Prop :=
  ∀ err : String, ∃ evs, handlerRun op.onComplete (some err) = .ok evs ∧
    (⟨"error", none, .str op.target⟩ : EvRec) ∈ evs

/-- `add(data)`: mint a fresh key via `push()`, and only when at least one
argument was passed, issue `set` on the new child with `_handleErrors`
bound to the fresh key.  `args` is the JS `arguments` list; the function
body reads only `arguments[0]`, so any extra argument (e.g. a caller's
custom key) is ignored.  Returns the state (untouched), the new child's
key, and the writes issued. -/
def add (s : ArrState) (freshKey : String) (args : List JSVal) :
    ArrState × String × List WriteOp :=
  (s, freshKey,
    if args.length > 0 then
      [⟨freshKey, .setW (args.headD .undef), some ⟨true, freshKey⟩⟩]
    else [])

/-- `set(key, newValue)`: `ref.child(key).set(newValue, handler)`. -/
def set (s : ArrState) (key : String) (newValue : JSVal) :
    ArrState × List WriteOp :=
  (s, [⟨key, .setW newValue, some ⟨true, key⟩⟩])

/-- The message of the synchronous validation error thrown by the ref's
`update` when its argument is not an object (MockFirebase.js line 240). -/
def updateErrMsg : String :=
  "First argument must be an object when calling $update"

/-- `ref.child(target).update(changes, cb)` as implemented by the
collaborator (test/lib/MockFirebase.js): throws synchronously when
`changes` is not an object, otherwise schedules the write. -/
def refUpdate (target : String) (changes : JSVal) (cb : Handler) :
    Except String WriteOp :=
  if isObject changes then .ok ⟨target, .updateW changes, some cb⟩
  else .error updateErrMsg

/-- `update(key, newValue)`: delegates to the ref's `update` with
`_handleErrors` bound to the key; the ref's synchronous validation error
propagates to the caller. -/
def update (s : ArrState) (key : String) (newValue : JSVal) :
    Except String (ArrState × List WriteOp) :=
  (refUpdate key newValue ⟨true, key⟩).map (fun op => (s, [op]))

/-- `setPriority(key, newPriority)`: issues the reorder write with *no*
completion handler. -/
def setPriority (s : ArrState) (key : String) (newPriority : Int) :
    ArrState × List WriteOp :=
  (s, [⟨key, .setPriorityW newPriority, none⟩])

/-- `remove(key)`: `ref.child(key).remove(this._handleErrors.bind(null, key))`
— note the handler is bound to `null`, not `this`. -/
def removeCall (s : ArrState) (key : String) : ArrState × List WriteOp :=
  (s, [⟨key, .removeW, some ⟨false, key⟩⟩])

/-- A call to one of the five mutation methods of the array API. -/
inductive MutationCall where
  | create : List JSVal → MutationCall
  | replace : String → JSVal → MutationCall
  | merge : String → JSVal → MutationCall
  | reorder : String → Int → MutationCall
  | delete : String → MutationCall

/-- Run one mutation call: the resulting local state and the writes it
issued, or the synchronously thrown error.  `freshKey` is the key
`ref.push()` would mint, used only by `create`. -/
def runMutation (s : ArrState) (freshKey : String) :
    MutationCall → Except String (ArrState × List WriteOp)
  | .create args => .ok ((add s freshKey args).1, (add s freshKey args).2.2)
  | .replace key v => .ok (set s key v)
  | .merge key v => update s key v
  | .reorder key pri => .ok (setPriority s key pri)
  | .delete key => .ok (removeCall s key)

/-- A remote event as streamed by the ordered source. -/
inductive RemoteEv where
  | added : String → JSVal → Option String → RemoteEv
  | removed : String → RemoteEv
  | changed : String → JSVal → RemoteEv
  | moved : String → Option String → RemoteEv

/-- Dispatch one inbound event to its handler. -/
def applyEvent (s : ArrState) : RemoteEv → ArrState × List EvRec
  | .added k v prev => serverAdd s k v prev
  | .removed k => serverRemove s k
  | .changed k v => serverChange s k v
  | .moved k prev => serverMove s k prev

/-- The event kind under which an event is dispatched by the source. -/
def eventKind : RemoteEv → String
  | .added _ _ _ => "child_added"
  | .removed _ => "child_removed"
  | .changed _ _ => "child_changed"
  | .moved _ _ => "child_moved"

/-- The four subscriptions registered by `_initListeners`. -/
def initialSubs : List String :=
  ["child_added", "child_removed", "child_changed", "child_moved"]

/-- A projection instance: its live event subscriptions and its state. -/
structure Projection where
  subs : List String
  state : ArrState

/-- Delivery of a remote event by the source's pub/sub layer: a handler
runs only while its subscription is live (MockFirebase's `_trigger`
iterates the callbacks registered by `on` that `off` has not removed). -/
def deliver (p : Projection) (e : RemoteEv) : Projection × List EvRec :=
  if eventKind e ∈ p.subs then
    let r := applyEvent p.state e
    (⟨p.subs, r.1⟩, r.2)
  else (p, [])

/-- Modelled from the spec: the detach operation (`$off` in the test
suite, test/test.js) is absent from src/firebase-as-array.js.  Per the
spec it "releases all four subscriptions; no further remote events are
applied to this projection instance afterward". -/
def detach (p : Projection) : Projection :=
  ⟨[], p.state⟩

/-- Contract of the remote ordered keyed collection: a `child_added`
event always carries a key not currently present locally (a keyed
collection adds a given key at most once between removals and events are
delivered in source order), while removed/changed/moved events may
reference absent keys (the races the spec tolerates as no-ops). -/
def wfEvent (s : ArrState) : RemoteEv → Prop
  | .added k _ _ => k ∉ s.ids
  | _ => True

/-- States reachable from the freshly constructed projection
(`this.ids = []; this.list = []`) by applying remote events. -/
inductive Reachable : ArrState → Prop where
  | init : Reachable ⟨[], []⟩
  | step {s : ArrState} {e : RemoteEv} :
      Reachable s → wfEvent s e → Reachable (applyEvent s e).1

/-! ## Splice and lookup lemmas -/

theorem length_spliceInsert {α : Type} (l : List α) :
    ∀ (n : Nat) (a : α), (spliceInsert l n a).length = l.length + 1 := by
  induction l with
  | nil => intro n a; cases n <;> simp [spliceInsert]
  | cons x xs ih =>
      intro n a
      cases n with
      | zero => simp [spliceInsert]
      | succ n => simp [spliceInsert, ih n a]

theorem mem_spliceInsert {α : Type} {b : α} (l : List α) :
    ∀ (n : Nat) (a : α), b ∈ spliceInsert l n a ↔ b = a ∨ b ∈ l := by
  induction l with
  | nil => intro n a; cases n <;> simp [spliceInsert]
  | cons x xs ih =>
      intro n a
      cases n with
      | zero => simp [spliceInsert]
      | succ n =>
          simp only [spliceInsert, List.mem_cons, ih n a]
          tauto

theorem nodup_spliceInsert {α : Type} {a : α} (l : List α) :
    ∀ (n : Nat), a ∉ l → l.Nodup → (spliceInsert l n a).Nodup := by
  induction l with
  | nil => intro n _ _; cases n <;> simp [spliceInsert]
  | cons x xs ih =>
      intro n ha h
      have hax : a ≠ x := fun he => ha (he ▸ List.mem_cons_self x xs)
      have haxs : a ∉ xs := fun hm => ha (List.mem_cons_of_mem x hm)
      rw [List.nodup_cons] at h
      cases n with
      | zero =>
          simp only [spliceInsert, List.nodup_cons]
          exact ⟨ha, h⟩
      | succ n =>
          simp only [spliceInsert, List.nodup_cons]
          refine ⟨fun hx => ?_, ih n haxs h.2⟩
          rcases (mem_spliceInsert xs n a).1 hx with hxa | hxs
          · exact hax hxa.symm
          · exact h.1 hxs

theorem length_spliceRemove1 {α : Type} (l : List α) :
    ∀ (n : Nat), n < l.length → (spliceRemove1 l n).length = l.length - 1 := by
  induction l with
  | nil => intro n h; simp at h
  | cons x xs ih =>
      intro n h
      cases n with
      | zero => simp [spliceRemove1]
      | succ n =>
          have hn : n < xs.length := by simpa using Nat.lt_of_succ_lt_succ h
          simp only [spliceRemove1, List.length_cons, ih n hn]
          omega

theorem spliceRemove1_sublist {α : Type} (l : List α) :
    ∀ (n : Nat), List.Sublist (spliceRemove1 l n) l := by
  induction l with
  | nil => intro n; simp [spliceRemove1]
  | cons x xs ih =>
      intro n
      cases n with
      | zero => exact List.sublist_cons_self x xs
      | succ n => simpa [spliceRemove1] using List.Sublist.cons₂ x (ih n)

theorem posByKey_none {l : List String} {k : String} :
    posByKey l k = none ↔ k ∉ l := by
  induction l with
  | nil => simp [posByKey]
  | cons x xs ih =>
      by_cases hx : x = k
      · subst hx; simp [posByKey]
      · have hb : (x == k) = false := beq_eq_false_iff_ne.2 hx
        simp only [posByKey, hb, Bool.false_eq_true, if_false,
          Option.map_eq_none', ih, List.mem_cons, not_or]
        constructor
        · intro h; exact ⟨fun hk => hx hk.symm, h⟩
        · intro h; exact h.2

theorem posByKey_lt_length {l : List String} {k : String} :
    ∀ {p : Nat}, posByKey l k = some p → p < l.length := by
  induction l with
  | nil => intro p h; simp [posByKey] at h
  | cons x xs ih =>
      intro p h
      by_cases hx : x = k
      · subst hx
        simp [posByKey] at h
        simp [List.length_cons, ← h]
      · have hb : (x == k) = false := beq_eq_false_iff_ne.2 hx
        simp only [posByKey, hb, Bool.false_eq_true, if_false,
          Option.map_eq_some'] at h
        obtain ⟨q, hq, rfl⟩ := h
        have := ih hq
        simp only [List.length_cons]
        omega

theorem not_mem_spliceRemove1 {l : List String} {k : String} :
    ∀ {p : Nat}, l.Nodup → posByKey l k = some p → k ∉ spliceRemove1 l p := by
  induction l with
  | nil => intro p _ h; simp [posByKey] at h
  | cons x xs ih =>
      intro p hnd hp
      rw [List.nodup_cons] at hnd
      by_cases hx : x = k
      · subst hx
        simp [posByKey] at hp
        simp only [← hp, spliceRemove1]
        exact hnd.1
      · have hb : (x == k) = false := beq_eq_false_iff_ne.2 hx
        simp only [posByKey, hb, Bool.false_eq_true, if_false,
          Option.map_eq_some'] at hp
        obtain ⟨q, hq, rfl⟩ := hp
        simp only [spliceRemove1, List.mem_cons, not_or]
        exact ⟨fun h => hx h.symm, ih hnd.2 hq⟩

/-! ## Preservation of the parallel-sequence invariant -/

/-- The state invariant: parallel lengths and duplicate-free keys. -/
def Inv (s : ArrState) : Prop :=
  s.ids.length = s.list.length ∧ s.ids.Nodup

theorem moveTo_inv {s : ArrState} {id : String} {data : JSVal}
    {prevId : Option String} (hs : Inv s) (hid : id ∉ s.ids) :
    Inv (moveTo s id data prevId) := by
  obtain ⟨hlen, hnd⟩ := hs
  cases prevId with
  | none =>
      exact ⟨by simp [moveTo, hlen], by simp [moveTo, List.nodup_cons, hid, hnd]⟩
  | some prev =>
      have hnone : posByKey s.ids id = none := posByKey_none.2 hid
      refine ⟨?_, ?_⟩
      · simp [moveTo, hnone, length_spliceInsert, hlen]
      · simpa [moveTo, hnone] using
          nodup_spliceInsert s.ids s.list.length hid hnd

theorem applyEvent_inv {s : ArrState} {e : RemoteEv}
    (hs : Inv s) (hwf : wfEvent s e) : Inv (applyEvent s e).1 := by
  obtain ⟨hlen, hnd⟩ := hs
  cases e with
  | added k v prev =>
      exact moveTo_inv ⟨hlen, hnd⟩ hwf
  | removed k =>
      simp only [applyEvent, serverRemove]
      cases hp : posByKey s.ids k with
      | none => exact ⟨hlen, hnd⟩
      | some pos =>
          have hpi : pos < s.ids.length := posByKey_lt_length hp
          have hpl : pos < s.list.length := hlen ▸ hpi
          refine ⟨?_, hnd.sublist (spliceRemove1_sublist s.ids pos)⟩
          simp [length_spliceRemove1 _ _ hpi, length_spliceRemove1 _ _ hpl, hlen]
  | changed k v =>
      simp only [applyEvent, serverChange]
      cases hp : posByKey s.ids k with
      | none => exact ⟨hlen, hnd⟩
      | some pos => exact ⟨by simp [hlen], hnd⟩
  | moved k prev =>
      simp only [applyEvent, serverMove]
      cases hp : posByKey s.ids k with
      | none => exact ⟨hlen, hnd⟩
      | some pos =>
          have hpi : pos < s.ids.length := posByKey_lt_length hp
          have hpl : pos < s.list.length := hlen ▸ hpi
          have h1 : Inv ⟨spliceRemove1 s.ids pos, spliceRemove1 s.list pos⟩ := by
            refine ⟨?_, hnd.sublist (spliceRemove1_sublist s.ids pos)⟩
            simp [length_spliceRemove1 _ _ hpi, length_spliceRemove1 _ _ hpl, hlen]
          exact moveTo_inv h1 (not_mem_spliceRemove1 hnd hp)

/-! ## Field lemmas for the in-place merge -/

theorem getField_setField (b : List (String × JSVal)) (k k' : String)
    (v : JSVal) :
    getField (setField b k v) k' =
      if k' = k then some v else getField b k' := by
  induction b with
  | nil =>
      by_cases h : k' = k
      · simp [setField, getField, h]
      · have hb : (k == k') = false := beq_eq_false_iff_ne.2 (fun hh => h hh.symm)
        simp [setField, getField, h, hb]
  | cons p ps ih =>
      by_cases hpk : p.1 = k
      · have hbk : (p.1 == k) = true := beq_iff_eq.2 hpk
        by_cases h : k' = k
        · subst h
          have : (k' == k') = true := beq_self_eq_true k'
          simp [setField, getField, hbk, this, hpk]
        · have h1 : (k == k') = false := beq_eq_false_iff_ne.2 (fun hh => h hh.symm)
          have h2 : (p.1 == k') = false :=
            beq_eq_false_iff_ne.2 (fun hh => h (hpk ▸ hh).symm)
          simp [setField, getField, hbk, h1, h2, h]
      · have hbk : (p.1 == k) = false := beq_eq_false_iff_ne.2 hpk
        by_cases hp' : p.1 = k'
        · have h2 : (p.1 == k') = true := beq_iff_eq.2 hp'
          have h3 : k' ≠ k := fun he => hpk (hp'.trans he)
          simp [setField, getField, hbk, h2, h3]
        · have h2 : (p.1 == k') = false := beq_eq_false_iff_ne.2 hp'
          simp [setField, getField, hbk, h2, ih]

theorem getField_eq_none {df : List (String × JSVal)} {k : String} :
    getField df k = none ↔ k ∉ df.map Prod.fst := by
  induction df with
  | nil => simp [getField]
  | cons p ps ih =>
      by_cases hp : p.1 = k
      · simp [getField, hp]
      · have hb : (p.1 == k) = false := beq_eq_false_iff_ne.2 hp
        simp only [getField, hb, Bool.false_eq_true, if_false, ih,
          List.map_cons, List.mem_cons, not_or]
        constructor
        · intro h; exact ⟨fun hk => hp hk.symm, h⟩
        · intro h; exact h.2

theorem hasOwn_eq_false {df : List (String × JSVal)} {k : String} :
    hasOwn df k = false ↔ k ∉ df.map Prod.fst := by
  induction df with
  | nil => simp [hasOwn]
  | cons p ps ih =>
      by_cases hp : p.1 = k
      · simp [hasOwn, hp]
      · have hb : (p.1 == k) = false := beq_eq_false_iff_ne.2 hp
        simp only [hasOwn] at ih
        simp only [hasOwn, List.any_cons, hb, Bool.false_or,
          List.map_cons, List.mem_cons, not_or]
        constructor
        · intro h; exact ⟨fun hk => hp hk.symm, ih.1 h⟩
        · intro h; exact ih.2 h.2

theorem getField_filter_none {bf df : List (String × JSVal)} {k : String}
    (h : k ∉ df.map Prod.fst) :
    getField (bf.filter (fun p => hasOwn df p.1)) k = none := by
  induction bf with
  | nil => simp [getField]
  | cons p ps ih =>
      by_cases hf : hasOwn df p.1
      · have hp : p.1 ≠ k := by
          intro he
          have hno : hasOwn df k = false := hasOwn_eq_false.2 h
          rw [he] at hf
          simp [hno] at hf
        have hb : (p.1 == k) = false := beq_eq_false_iff_ne.2 hp
        simp [List.filter_cons, hf, getField, hb, ih]
      · simp only [Bool.not_eq_true] at hf
        simp [List.filter_cons, hf, ih]

theorem getField_foldl_setField :
    ∀ (df : List (String × JSVal)), (df.map Prod.fst).Nodup →
      ∀ (base : List (String × JSVal)) (k : String),
        getField (df.foldl (fun b q => setField b q.1 q.2) base) k =
          (getField df k).elim (getField base k) some := by
  intro df
  induction df with
  | nil => intro _ base k; simp [getField]
  | cons q rest ih =>
      intro hnd base k
      simp only [List.map_cons, List.nodup_cons] at hnd
      simp only [List.foldl_cons]
      rw [ih hnd.2 _ k]
      by_cases hqk : q.1 = k
      · subst hqk
        have hr : getField rest q.1 = none := getField_eq_none.2 hnd.1
        have hb : (q.1 == q.1) = true := beq_self_eq_true q.1
        simp [hr, getField_setField, getField, hb]
      · have hb : (q.1 == k) = false := beq_eq_false_iff_ne.2 hqk
        have hk : k ≠ q.1 := fun h => hqk h.symm
        simp only [getField, hb, Bool.false_eq_true, if_false,
          getField_setField, hk, if_false]

/-- The merged record produced by `applyToBase` on two objects binds every
key exactly as the incoming value does. -/
theorem getField_applyToBase {i j : Nat} {bf df : List (String × JSVal)}
    (k : String) (hnd : (df.map Prod.fst).Nodup) :
    getField (fieldsOf (applyToBase (.obj i bf) (.obj j df))) k =
      getField df k := by
  simp only [applyToBase, fieldsOf]
  rw [getField_foldl_setField df hnd _ k]
  cases hdf : getField df k with
  | some v => simp
  | none =>
      simp only [Option.elim]
      exact getField_filter_none (getField_eq_none.1 hdf)

/-! ## Claims -/

/-- C1: the claim says an `added(key, value, afterKey)` event with
`afterKey` present at position `p` inserts the new pair at `p+1`.  The
code instead computes `posByKey` of the *new* key (`_moveTo` line 96 uses
`id`, not `prevId`), so a fresh key is always appended at the end: here
`afterKey = "a"` sits at position 0, the claim demands `"c"` at position
1 (order `["a", "c", "b"]`), yet the code yields `["a", "b", "c"]`. -/
theorem serverAdd_ignores_sibling_position :
    serverAdd ⟨["a", "b"], [.num 1, .num 2]⟩ "c" (.num 3) (some "a") =
      (⟨["a", "b", "c"], [.num 1, .num 2, .num 3]⟩,
        [⟨"child_added", some "c", .num 3⟩]) := rfl

/-- C2: every state reachable from the fresh projection by applied remote
events (with `child_added` events carrying locally absent keys, the
contract of the remote keyed source) has key and value sequences of equal
length, and duplicate-free keys. -/
theorem reachable_parallel_nodup (s : ArrState) (h : Reachable s) :
    s.ids.length = s.list.length ∧ s.ids.Nodup := by
  induction h with
  | init => simp
  | step hr hwf ih => exact applyEvent_inv ih hwf

/-- Witness for C2: a concrete two-event reachable state. -/
theorem reachable_parallel_nodup_witness :
    (ArrState.mk ["a", "b"] [.num 1, .num 2]).ids.length =
        (ArrState.mk ["a", "b"] [.num 1, .num 2]).list.length
    ∧ (ArrState.mk ["a", "b"] [.num 1, .num 2]).ids.Nodup := by
  refine reachable_parallel_nodup _ ?_
  have h0 : Reachable (⟨[], []⟩ : ArrState) := Reachable.init
  have h1 : Reachable (⟨["a"], [.num 1]⟩ : ArrState) :=
    Reachable.step (e := .added "a" (.num 1) none) h0
      (by show ("a" : String) ∉ ([] : List String); simp)
  exact Reachable.step (e := .added "b" (.num 2) (some "a")) h1
    (by show ("b" : String) ∉ (["a"] : List String); simp)

/-- C3: the claim says a `removed(key)` event notifies with the value
that was removed.  `_serverRemove` reads `this.list[pos]` only *after*
splicing, so the callback receives the record that moved into the vacated
position: removing `"a"` (value `1`) from `["a" ↦ 1, "b" ↦ 2]` correctly
deletes the entry from both sequences but notifies with `2`, the value of
`"b"`, not the removed `1`. -/
theorem serverRemove_notifies_successor_value :
    serverRemove ⟨["a", "b"], [.num 1, .num 2]⟩ "a" =
      (⟨["b"], [.num 2]⟩, [⟨"child_removed", some "a", .num 2⟩]) := rfl

/-- C4 counterexample: the reorder mutation (`setPriority`) passes no
completion handler at all, so a failing reorder write is never reported
through the notification callback. -/
theorem reorder_failure_unreported :
    (setPriority ⟨[], []⟩ "k" 100).2 = [⟨"k", .setPriorityW 100, none⟩]
    ∧ ¬ ReportsFailure ⟨"k", .setPriorityW 100, none⟩ := by
  refine ⟨rfl, fun h => ?_⟩
  obtain ⟨evs, he, hm⟩ := h "PERMISSION_DENIED"
  simp only [handlerRun, Except.ok.injEq] at he
  rw [← he] at hm
  simp at hm

/-- C4 amended: create, replace and merge attach `_handleErrors` bound to
the record key, so their asynchronous failures surface as an error event
tagged with that key and nothing is thrown to the mutation caller; the
reorder call attaches no completion handler (its failures are silent),
and the delete call binds its handler to a `null` receiver, so on failure
the handler faults instead of delivering the event. -/
theorem mutation_failure_reporting
    (s : ArrState) (freshKey key : String) (v : JSVal) (pri : Int)
    (args : List JSVal) (err : String)
    (hargs : args ≠ []) (hv : isObject v = true) :
    ((add s freshKey args).2.2.map
        (fun op => handlerRun op.onComplete (some err)))
      = [.ok [⟨"error", none, .str freshKey⟩]]
    ∧ ((set s key v).2.map (fun op => handlerRun op.onComplete (some err)))
      = [.ok [⟨"error", none, .str key⟩]]
    ∧ update s key v = .ok (s, [⟨key, .updateW v, some ⟨true, key⟩⟩])
    ∧ handlerRun (some ⟨true, key⟩) (some err) =
        .ok [⟨"error", none, .str key⟩]
    ∧ ((setPriority s key pri).2.map (fun op => op.onComplete)) = [none]
    ∧ ((removeCall s key).2.map
        (fun op => handlerRun op.onComplete (some err))) = [.error ()]
    ∧ (runMutation s freshKey (.reorder key pri)).isOk = true
    ∧ (runMutation s freshKey (.delete key)).isOk = true := by
  have hlen : args.length > 0 := List.length_pos.2 hargs
  refine ⟨?_, ?_, ?_, ?_, ?_, ?_, ?_, ?_⟩ <;>
    simp [add, set, update, refUpdate, setPriority, removeCall, runMutation,
      handlerRun, handleErrors, hv, hlen, Except.isOk, Except.map,
      Except.toBool]

/-- Witness for C4 (amended) at concrete arguments. -/
theorem mutation_failure_reporting_witness :
    ((add ⟨[], []⟩ "f" [.num 5]).2.2.map
        (fun op => handlerRun op.onComplete (some "ERR")))
      = [.ok [⟨"error", none, .str "f"⟩]]
    ∧ ((set ⟨[], []⟩ "k" (.obj 1 [])).2.map
        (fun op => handlerRun op.onComplete (some "ERR")))
      = [.ok [⟨"error", none, .str "k"⟩]]
    ∧ update ⟨[], []⟩ "k" (.obj 1 []) =
        .ok (⟨[], []⟩, [⟨"k", .updateW (.obj 1 []), some ⟨true, "k"⟩⟩])
    ∧ handlerRun (some ⟨true, "k"⟩) (some "ERR") =
        .ok [⟨"error", none, .str "k"⟩]
    ∧ ((setPriority ⟨[], []⟩ "k" 100).2.map (fun op => op.onComplete)) = [none]
    ∧ ((removeCall ⟨[], []⟩ "k").2.map
        (fun op => handlerRun op.onComplete (some "ERR"))) = [.error ()]
    ∧ (runMutation ⟨[], []⟩ "f" (.reorder "k" 100)).isOk = true
    ∧ (runMutation ⟨[], []⟩ "f" (.delete "k")).isOk = true :=
  mutation_failure_reporting ⟨[], []⟩ "f" "k" (.obj 1 []) 100 [.num 5] "ERR"
    (List.cons_ne_nil _ _) rfl

/-- C5: detaching (spec-modelled `$off`; the operation is exercised by
test/test.js but absent from src/firebase-as-array.js) releases all four
subscriptions registered by `_initListeners`, and afterwards no remote
event of any kind changes the projection or fires a notification. -/
theorem detach_releases_and_stops (s : ArrState) (e : RemoteEv) :
    (detach ⟨initialSubs, s⟩).subs = []
    ∧ deliver (detach ⟨initialSubs, s⟩) e = (detach ⟨initialSubs, s⟩, []) := by
  refine ⟨rfl, ?_⟩
  simp [deliver, detach]

/-- C6: `merge(key, partialValue)` with a non-object `partialValue` fails
synchronously with the collaborator's validation error before any write
is issued (the error result carries no write operation). -/
theorem merge_scalar_rejected (s : ArrState) (freshKey key : String)
    (v : JSVal) (hv : isObject v = false) :
    update s key v = .error updateErrMsg
    ∧ runMutation s freshKey (.merge key v) = .error updateErrMsg := by
  constructor <;> simp [update, refUpdate, runMutation, hv, Except.map]

/-- Witness for C6: `merge(k, true)` is rejected synchronously. -/
theorem merge_scalar_rejected_witness :
    update ⟨[], []⟩ "k" (.bool true) = .error updateErrMsg
    ∧ runMutation ⟨[], []⟩ "f" (.merge "k" (.bool true)) =
        .error updateErrMsg :=
  merge_scalar_rejected ⟨[], []⟩ "f" "k" (.bool true) rfl

/-- C7: the claim says `create(value, explicitKey)` places the record
under the supplied explicit key (the behaviour the repository's own test
"should accept a custom id" expects of `$add({foo:'bar'}, 'foobar')`).
The source's `add(data)` reads only its first argument and always pushes
a fresh key: with pushed key `"mock1"`, the write targets `"mock1"` and
the argument `"foobar"` is ignored. -/
theorem add_ignores_custom_key :
    (add ⟨[], []⟩ "mock1" [.obj 1 [("foo", .str "bar")], .str "foobar"] =
      (⟨[], []⟩, "mock1",
        [⟨"mock1", .setW (.obj 1 [("foo", .str "bar")]),
          some ⟨true, "mock1"⟩⟩]))
    ∧ "mock1" ≠ "foobar" := ⟨rfl, by decide⟩

/-- C8: a `changed(key, newValue)` event on a present key replaces the
record at its position by `applyToBase` of the old record and the new
value and notifies with that merged record; on two objects `applyToBase`
keeps the base object's identity (`oid`) while giving it exactly the
incoming value's bindings, and when either side is not an object the new
value replaces the old one outright. -/
theorem serverChange_merges_in_place
    (s : ArrState) (key : String) (pos : Nat) (v : JSVal)
    (i j : Nat) (bf df : List (String × JSVal)) (k : String) (b d : JSVal)
    (hpos : posByKey s.ids key = some pos)
    (hnd : (df.map Prod.fst).Nodup)
    (hbd : isObject b = false ∨ isObject d = false) :
    (serverChange s key v).1.ids = s.ids
    ∧ (serverChange s key v).1.list =
        s.list.set pos (applyToBase (jsGet s.list pos) v)
    ∧ (serverChange s key v).2 =
        [⟨"child_changed", some key, applyToBase (jsGet s.list pos) v⟩]
    ∧ objId (applyToBase (.obj i bf) (.obj j df)) = some i
    ∧ getField (fieldsOf (applyToBase (.obj i bf) (.obj j df))) k =
        getField df k
    ∧ applyToBase b d = d := by
  refine ⟨?_, ?_, ?_, ?_, getField_applyToBase k hnd, ?_⟩
  · simp [serverChange, hpos]
  · simp [serverChange, hpos]
  · simp [serverChange, hpos]
  · simp [applyToBase, objId]
  · rcases hbd with h | h <;> cases b <;> cases d <;>
      simp_all [isObject, applyToBase]

/-- Witness for C8 at a concrete state and values. -/
theorem serverChange_merges_in_place_witness :
    (serverChange ⟨["a"], [.obj 7 [("x", .num 1)]]⟩ "a"
        (.obj 9 [("y", .num 2)])).1.ids = (ArrState.mk ["a"] [.obj 7 [("x", .num 1)]]).ids
    ∧ (serverChange ⟨["a"], [.obj 7 [("x", .num 1)]]⟩ "a"
        (.obj 9 [("y", .num 2)])).1.list =
        (ArrState.mk ["a"] [.obj 7 [("x", .num 1)]]).list.set 0
          (applyToBase
            (jsGet (ArrState.mk ["a"] [.obj 7 [("x", .num 1)]]).list 0)
            (.obj 9 [("y", .num 2)]))
    ∧ (serverChange ⟨["a"], [.obj 7 [("x", .num 1)]]⟩ "a"
        (.obj 9 [("y", .num 2)])).2 =
        [⟨"child_changed", some "a",
          applyToBase
            (jsGet (ArrState.mk ["a"] [.obj 7 [("x", .num 1)]]).list 0)
            (.obj 9 [("y", .num 2)])⟩]
    ∧ objId (applyToBase (.obj 7 [("x", .num 1)]) (.obj 9 [("y", .num 2)])) =
        some 7
    ∧ getField
        (fieldsOf (applyToBase (.obj 7 [("x", .num 1)])
          (.obj 9 [("y", .num 2)]))) "y" =
        getField [("y", .num 2)] "y"
    ∧ applyToBase (.bool true) (.num 5) = .num 5 :=
  serverChange_merges_in_place ⟨["a"], [.obj 7 [("x", .num 1)]]⟩ "a" 0
    (.obj 9 [("y", .num 2)]) 7 9 [("x", .num 1)] [("y", .num 2)] "y"
    (.bool true) (.num 5) rfl (by simp) (Or.inl rfl)

/-- C9: no mutation call that returns normally changes the local key or
value sequence; both are exactly the sequences from before the call. -/
theorem mutations_preserve_sequences (s s' : ArrState) (freshKey : String)
    (c : MutationCall) (ops : List WriteOp)
    (h : runMutation s freshKey c = .ok (s', ops)) :
    s'.ids = s.ids ∧ s'.list = s.list := by
  cases c with
  | create args =>
      simp only [runMutation, Except.ok.injEq, Prod.mk.injEq, add] at h
      rw [← h.1]
      exact ⟨rfl, rfl⟩
  | replace key v =>
      simp only [runMutation, set, Except.ok.injEq, Prod.mk.injEq] at h
      rw [← h.1]
      exact ⟨rfl, rfl⟩
  | merge key v =>
      cases hv : isObject v with
      | false => simp [runMutation, update, refUpdate, hv, Except.map] at h
      | true =>
          simp only [runMutation, update, refUpdate, hv, if_true] at h
          rw [show Except.map (fun op => (s, [op]))
              (Except.ok (⟨key, .updateW v, some ⟨true, key⟩⟩ : WriteOp)) =
              Except.ok (s, [(⟨key, .updateW v, some ⟨true, key⟩⟩ : WriteOp)])
            from rfl] at h
          simp only [Except.ok.injEq, Prod.mk.injEq] at h
          rw [← h.1]
          exact ⟨rfl, rfl⟩
  | reorder key pri =>
      simp only [runMutation, setPriority, Except.ok.injEq,
        Prod.mk.injEq] at h
      rw [← h.1]
      exact ⟨rfl, rfl⟩
  | delete key =>
      simp only [runMutation, removeCall, Except.ok.injEq,
        Prod.mk.injEq] at h
      rw [← h.1]
      exact ⟨rfl, rfl⟩

/-- Witness for C9: a replace call leaves the sequences untouched. -/
theorem mutations_preserve_sequences_witness :
    (ArrState.mk ["a"] [.num 1]).ids = (ArrState.mk ["a"] [.num 1]).ids
    ∧ (ArrState.mk ["a"] [.num 1]).list =
        (ArrState.mk ["a"] [.num 1]).list :=
  mutations_preserve_sequences ⟨["a"], [.num 1]⟩ ⟨["a"], [.num 1]⟩ "f"
    (.replace "a" (.num 2)) [⟨"a", .setW (.num 2), some ⟨true, "a"⟩⟩] rfl

/-- C10: whenever a remote write failure is delivered through the
notification callback, the callback receives event kind `"error"`,
`null` (`none`) in the record-id slot, and the affected record's key in
the data slot. -/
theorem error_event_shape (key : String) (err : Option String)
    (h : err.isSome = true) :
    handleErrors key err = [⟨"error", none, .str key⟩]
    ∧ handlerRun (some ⟨true, key⟩) err =
        .ok [⟨"error", none, .str key⟩] := by
  cases err with
  | none => simp at h
  | some e => exact ⟨rfl, rfl⟩

/-- Witness for C10 at a concrete key and error. -/
theorem error_event_shape_witness :
    handleErrors "k" (some "PERMISSION_DENIED") =
      [⟨"error", none, .str "k"⟩]
    ∧ handlerRun (some ⟨true, "k"⟩) (some "PERMISSION_DENIED") =
        .ok [⟨"error", none, .str "k"⟩] :=
  error_event_shape "k" (some "PERMISSION_DENIED") rfl

end FBArray
